import Mathlib

/-
Verification of the hydrogen-production calculators (hydro-requirement/hydrogen.py)
and of the fuel-consumption report tool (calculate.py).

The numeric code is embedded shallowly over an arbitrary linear ordered field.
Python float arithmetic is modelled by exact field arithmetic; claims are stated
at the rationals where no logarithm occurs and at the reals otherwise.  The
natural logarithm used by hte_req (np.log) is passed to the HTE definitions as
an explicit function parameter lg so that every definition stays computable;
the real program corresponds to the instantiation lg := Real.log at the reals.

Fatal runtime events of the Python source (sys.exit on a violated domain
precondition, ZeroDivisionError, UnboundLocalError) are modelled by an explicit
error result of type Except HydroErr.
-/

/-- Runtime failures of the Python source. -/
inductive HydroErr where
  /-- Models the print-and-sys.exit path taken when a process temperature is
  below 750 C in the SI pathways. -/
  | domainPreconditionViolation
  /-- Models the UnboundLocalError raised when a function returns a local
  variable that was never assigned on the taken branch. -/
  | unboundLocalGamma
  /-- Models a Python ZeroDivisionError. -/
  | divisionFault
deriving DecidableEq

variable {K : Type*} [LinearOrderedField K]

/-- Inner loop of the piecewise-linear table lookup; mirrors the compiled
numpy routine behind np.interp: the accumulator p is the rightmost table entry
whose abscissa is at most x.  Past the end of the table the last ordinate is
returned (no extrapolation); an exact abscissa hit returns its ordinate. -/
def interpGo (x : K) : K × K → List (K × K) → K
  | p, [] => p.2
  | p, q :: rest =>
    if x < q.1 then
      if x ≤ p.1 then p.2
      else p.2 + (q.2 - p.2) * (x - p.1) / (q.1 - p.1)
    else interpGo x q rest

/-- Piecewise-linear interpolation over an ordered table of (abscissa, ordinate)
pairs, clamping to the boundary ordinates outside the table domain.  This is the
shallow embedding of np.interp as used throughout hydrogen.py. -/
def interp (x : K) : List (K × K) → K
  | [] => 0
  | p :: rest => if x < p.1 then p.2 else interpGo x p rest

/-- Thermal-to-electricity conversion efficiency, from def efficiency of
hydrogen.py: tc = 27 + 273, th = th + 273, eta = (1 - tc/th) * 0.68. -/
def efficiency (th : K) : K :=
  (1 - (27 + 273) / (th + 273)) * 0.68

/-- Water enthalpy table at P = 3.5 MPa from def delta_H of hydrogen.py,
with the two parallel source lists temp and ent zipped into pairs.  Note the
deliberate duplicated abscissa 242.56 marking the phase transition. -/
def entTable : List (K × K) :=
  [(25, 1.9468), (50, 3.8255), (75, 5.7076), (100, 7.5974), (125, 9.5),
   (150, 11.423), (175, 13.374), (200, 15.368), (225, 17.421),
   (242.56, 18.912), (242.56, 50.49), (250, 50.977), (275, 52.4),
   (300, 53.657), (325, 54.823), (350, 55.935), (375, 57.012), (400, 58.066),
   (425, 59.106), (450, 60.136), (475, 61.16), (500, 62.182), (525, 63.203),
   (550, 64.225), (575, 65.249), (600, 66.276), (625, 67.306), (650, 68.341),
   (675, 69.381), (700, 70.426), (725, 71.477), (750, 72.534), (775, 73.597),
   (800, 74.666), (825, 75.742), (850, 76.825), (875, 77.914), (900, 79.009),
   (925, 80.112), (950, 81.221), (975, 82.337), (1000, 83.459)]

/-- Enthalpy difference h(Tout) - h(Tin) of water, def delta_H of hydrogen.py. -/
def delta_H (Tout Tin : K) : K :=
  interp Tout entTable - interp Tin entTable

/-- Low temperature electrolysis, def lte_prod_rate of hydrogen.py:
see = 60/eta, pr = P/see*1e3.  The source divides by eta with no domain check;
at eta = 0 the Python division raises, modelled by the divisionFault error. -/
def lte_prod_rate (P eta : K) : Except HydroErr (K × K) :=
  if eta = 0 then .error .divisionFault
  else
    let see := 60 / eta
    .ok (P / see * 1000, see)

/-- Two-point Gibbs free energy table of def hte_req: dg_T over temp. -/
def dgTable : List (K × K) := [(100, 225), (1200, 165)]

/-- Two-point entropy-term table of def hte_req: tds_T over temp. -/
def tdsTable : List (K × K) := [(100, 17), (1200, 99)]

/-- Electrical and thermal requirements of the electrolysis process,
def hte_req of hydrogen.py; lg is the natural logarithm (np.log). -/
def hte_req (lg : K → K) (P Te : K) : K × K :=
  let R := 8.314
  let dh := interp Te dgTable + interp Te tdsTable
  let tds := interp Te tdsTable - R * (Te + 273) * lg P / 1000
  (dh - tds, tds)

/-- Energy requirements for the HTE case, def hte_power_req of hydrogen.py. -/
def hte_power_req (lg : K → K) (P To : K) : K × K :=
  let ef := 0.97
  let Te := ef * To
  let eta := efficiency Te
  let etagammaPth := (hte_req lg P Te).1
  let gammacPth := (hte_req lg P Te).2 + delta_H 243 242
  let gammaPth := etagammaPth / eta
  let Pth := gammaPth + gammacPth
  let gamma := gammaPth / Pth
  (Pth / (2 * 1.008 * 3.6), gamma)

/-- HTE production rate, def hte_prod_rate of hydrogen.py.  On the zero-power
branch the source sets pth = 0 and pr = 0 but the local gamma is never
assigned, so the return statement raises UnboundLocalError; that raise is
modelled by the unboundLocalGamma error. -/
def hte_prod_rate (lg : K → K) (Pt p To : K) : Except HydroErr (K × K × K) :=
  if Pt ≠ 0 then
    let pg := hte_power_req lg p To
    .ok (Pt / pg.1 * 1000, pg.1, pg.2)
  else .error .unboundLocalGamma

/-- Energy requirements for the HTE case with steam temperature boosting,
def hte2_power_req of hydrogen.py. -/
def hte2_power_req (lg : K → K) (P To Te : K) : K × K :=
  let ef := 0.97
  let Tr := ef * To
  let eta := efficiency Tr
  let etagammaPth := (hte_req lg P Te).1
  let dH := (hte_req lg P Te).2 - (hte_req lg P Tr).2
  let etef := 0.95
  let etagammaPth2 := etagammaPth + etef * dH
  let gammacPth := (hte_req lg P Tr).2 + delta_H 243 242
  let gammaPth := etagammaPth2 / eta
  let Pth := gammaPth + gammacPth
  let gamma := gammaPth / Pth
  (Pth / (2 * 1.008 * 3.6), gamma)

/-- Boosted HTE production rate, def hte2_prod_rate of hydrogen.py, with the
same unassigned gamma on the zero-power branch as hte_prod_rate. -/
def hte2_prod_rate (lg : K → K) (Pt p To Te : K) : Except HydroErr (K × K × K) :=
  if Pt ≠ 0 then
    let pg := hte2_power_req lg p To Te
    .ok (Pt / pg.1 * 1000, pg.1, pg.2)
  else .error .unboundLocalGamma

/-- Sulfur-Iodine specific energy table of defs si_prod_rate and
si2_power_req: the source list sel in MJ/kg scaled by 1e3/3600 to kWh/kg. -/
def siTable : List (K × K) :=
  [(750, 1000 / 3600 * 600), (800, 1000 / 3600 * 400), (850, 1000 / 3600 * 300),
   (900, 1000 / 3600 * 265), (950, 1000 / 3600 * 245), (1000, 1000 / 3600 * 230)]

/-- Sulfur-Iodine production rate, def si_prod_rate of hydrogen.py.  The
print-and-exit on Ts below 750 C is modelled by an explicit error result. -/
def si_prod_rate (P To : K) : Except HydroErr (K × K) :=
  let Ts := 0.97 * To
  if 750 ≤ Ts then
    let pth := interp Ts siTable
    .ok (P / pth * 1000, pth)
  else .error .domainPreconditionViolation

/-- Energy requirements for the boosted Sulfur-Iodine case, def si2_power_req
of hydrogen.py, with the print-and-exit modelled by an error result. -/
def si2_power_req (eta To Ts : K) : Except HydroErr (K × K) :=
  let Tr := 0.97 * To
  if 750 ≤ Ts then
    let dHsi := interp Ts siTable
    let mdot := interp Tr siTable / delta_H Tr 170
    let dHboost := mdot * delta_H Ts Tr / (2 * 1.008 * 3.6)
    let gammacPth := dHsi - dHboost
    let etef := 0.95
    let gammaPth := 1 / eta * (1 / etef) * dHboost
    let Pth := gammaPth + gammacPth
    .ok (Pth, gammaPth / Pth)
  else .error .domainPreconditionViolation

/-- Boosted Sulfur-Iodine production rate, def si2_prod_rate of hydrogen.py. -/
def si2_prod_rate (P To Ts : K) : Except HydroErr (K × K × K) :=
  let eta := efficiency To
  match si2_power_req eta To Ts with
  | .ok pg => .ok (P / pg.1 * 1000, pg.1, pg.2)
  | .error e => .error e

/-- Electrical fraction component of a pathway result triple; 0 on error. -/
def gammaOf : Except HydroErr (K × K × K) → K
  | .ok r => r.2.2
  | .error _ => 0

/-- One parsed data row of the fuel-consumption input file: month, day and
the three fuel quantities, from def main of calculate.py. -/
structure FuelRow where
  month : ℕ
  day : ℕ
  unleaded : ℚ
  diesel : ℚ
  e85 : ℚ
deriving DecidableEq

/-- Per-month upper loop bound of def main of calculate.py: the inner loop
runs over range(1, end), so a bound of 32 means days 1..31 and February is
fixed at 28 days. -/
def monthEnd (mo : ℕ) : ℕ :=
  if mo = 4 ∨ mo = 6 ∨ mo = 9 ∨ mo = 11 then 31
  else if mo = 2 then 29
  else 32

/-- The fixed (month, day) iteration order of def main of calculate.py. -/
def calendar : List (ℕ × ℕ) :=
  (List.range' 1 12).flatMap fun mo =>
    (List.range' 1 (monthEnd mo - 1)).map fun da => (mo, da)

/-- Rounding to two decimals, modelling round(x, 2) of calculate.py. -/
def round2 (x : ℚ) : ℚ :=
  round (x * 100) / 100

/-- Sum of one fuel column over all rows matching an exact (month, day) key,
the inner accumulation loop of def main of calculate.py. -/
def daySum (f : FuelRow → ℚ) (rows : List FuelRow) (mo da : ℕ) : ℚ :=
  ((rows.filter fun r => r.day = da ∧ r.month = mo).map f).sum

/-- The per-day aggregated list built by def main of calculate.py for one
fuel column: one rounded daily total per calendar day. -/
def dailyTotals (f : FuelRow → ℚ) (rows : List FuelRow) : List ℚ :=
  calendar.map fun md => round2 (daySum f rows md.1 md.2)

/-- The HTE specific-energy and electrical-fraction composition read literally
from the spec wording of claim C3: dg is the bare linear interpolation of the
Gibbs endpoints at 100 C and 1200 C, and only tds carries the pressure
correction -R*(Te+273)*ln(p)/1000.  Returns (specific energy, gamma). -/
def hteSpecLiteral (lg : K → K) (p To : K) : K × K :=
  let Te := 0.97 * To
  let eta := efficiency Te
  let dg := interp Te dgTable
  let tds := interp Te tdsTable - 8.314 * (Te + 273) * lg p / 1000
  let gammacPth := tds + delta_H 243 242
  let gammaPth := dg / eta
  let Pth := gammaPth + gammacPth
  (Pth / (2 * 1.008 * 3.6), gammaPth / Pth)

/-- The HTE composition amended to match the source: dg additionally carries
the pressure term +8.314*(Te+273)*ln(p)/1000; equivalently dg = dh - tds with
dh = sum of the two uncorrected interpolants, which is what hte_req computes.
Returns (specific energy, gamma). -/
def hteSpecAmended (lg : K → K) (p To : K) : K × K :=
  let Te := 0.97 * To
  let eta := efficiency Te
  let dg := interp Te dgTable + 8.314 * (Te + 273) * lg p / 1000
  let tds := interp Te tdsTable - 8.314 * (Te + 273) * lg p / 1000
  let gammacPth := tds + delta_H 243 242
  let gammaPth := dg / eta
  let Pth := gammaPth + gammacPth
  (Pth / (2 * 1.008 * 3.6), gammaPth / Pth)

/-- C1: the spec asserts a zero-power short-circuit returning rate 0 and
specific energy 0 for both HTE production-rate functions, as their docstrings
and the explicit pr = 0, pth = 0 assignments intend; but on that branch the
local gamma is never assigned, so the Python return statement raises
UnboundLocalError instead of returning.  The embedding evaluates both
functions at zero thermal power to that error for every pressure and
temperature. -/
theorem hte_zero_power_raises :
    ∀ p To Te : ℝ,
      hte_prod_rate Real.log 0 p To = .error .unboundLocalGamma ∧
      hte2_prod_rate Real.log 0 p To Te = .error .unboundLocalGamma := by
  intro p To Te
  constructor
  · simp [hte_prod_rate]
  · simp [hte2_prod_rate]

/-- C2: si_prod_rate fails with the domain-precondition error exactly when
Ts = 0.97*Tout is below 750 C, and otherwise returns the interpolated
specific energy pth at Ts together with rate P/pth*1000. -/
theorem si_prod_rate_domain_and_value :
    ∀ P To : ℚ,
      (0.97 * To < 750 → si_prod_rate P To = .error .domainPreconditionViolation) ∧
      (750 ≤ 0.97 * To →
        si_prod_rate P To =
          .ok (P / interp (0.97 * To) siTable * 1000, interp (0.97 * To) siTable)) := by
  intro P To
  constructor
  · intro h
    simp only [si_prod_rate]
    rw [if_neg (not_le.mpr h)]
  · intro h
    simp only [si_prod_rate]
    rw [if_pos h]

/-- Witness for C2: at Tout = 700 the call fails since Ts = 679 < 750, and at
Tout = 800 it succeeds with pth = 1240/9, the linear interpolation between the
750 and 800 table points evaluated at Ts = 776. -/
theorem si_prod_rate_domain_and_value_witness :
    (0.97 * (700 : ℚ) < 750 ∧
      si_prod_rate (5 : ℚ) 700 = .error .domainPreconditionViolation) ∧
    (750 ≤ 0.97 * (800 : ℚ) ∧
      si_prod_rate (9 : ℚ) 800 = .ok (9 / (1240 / 9) * 1000, 1240 / 9)) := by
  have h1 : 0.97 * (700 : ℚ) < 750 := by norm_num
  have h2 : (750 : ℚ) ≤ 0.97 * 800 := by norm_num
  have hv : interp (0.97 * (800 : ℚ)) siTable = 1240 / 9 := by
    norm_num [interp, interpGo, siTable]
  refine ⟨⟨h1, (si_prod_rate_domain_and_value 5 700).1 h1⟩, h2, ?_⟩
  rw [(si_prod_rate_domain_and_value 9 800).2 h2, hv]

/-- C4: for Ts at least 750 C, si2_prod_rate computes its result by the
stated steps (eta from the outlet temperature, Tr = 0.97*Tout, the SI table
lookups, the boost term divided by 2*1.008*3.6, the thermal and electrical
shares, their sum as specific energy and the gamma quotient), and Ts below
750 C is the fatal domain-precondition error. -/
theorem si2_prod_rate_steps :
    ∀ P To Ts : ℚ,
      (750 ≤ Ts →
        si2_prod_rate P To Ts =
          let eta := efficiency To
          let Tr := 0.97 * To
          let dHsi := interp Ts siTable
          let mdot := interp Tr siTable / delta_H Tr 170
          let dHboost := mdot * delta_H Ts Tr / (2 * 1.008 * 3.6)
          let gammacPth := dHsi - dHboost
          let gammaPth := dHboost / (eta * 0.95)
          let Pth := gammaPth + gammacPth
          .ok (P / Pth * 1000, Pth, gammaPth / Pth)) ∧
      (Ts < 750 → si2_prod_rate P To Ts = .error .domainPreconditionViolation) := by
  intro P To Ts
  constructor
  · intro h
    simp only [si2_prod_rate, si2_power_req]
    rw [if_pos h]
    have key : ∀ eta d : ℚ, 1 / eta * (1 / 0.95) * d = d / (eta * 0.95) := by
      intro eta d
      ring
    rw [key]
  · intro h
    simp only [si2_prod_rate, si2_power_req]
    rw [if_neg (not_le.mpr h)]

/-- Witness for C4: the successful branch at (P, Tout, Ts) = (1, 800, 800)
and the failing branch at Ts = 700. -/
theorem si2_prod_rate_steps_witness :
    ((750 : ℚ) ≤ 800 ∧
      si2_prod_rate (1 : ℚ) 800 800 =
        (let eta := efficiency (800 : ℚ)
         let Tr := 0.97 * (800 : ℚ)
         let dHsi := interp (800 : ℚ) siTable
         let mdot := interp Tr siTable / delta_H Tr 170
         let dHboost := mdot * delta_H 800 Tr / (2 * 1.008 * 3.6)
         let gammacPth := dHsi - dHboost
         let gammaPth := dHboost / (eta * 0.95)
         let Pth := gammaPth + gammacPth
         .ok (1 / Pth * 1000, Pth, gammaPth / Pth))) ∧
    ((700 : ℚ) < 750 ∧
      si2_prod_rate (1 : ℚ) 800 700 = .error .domainPreconditionViolation) :=
  ⟨⟨by norm_num, (si2_prod_rate_steps 1 800 800).1 (by norm_num)⟩,
    by norm_num, (si2_prod_rate_steps 1 800 700).2 (by norm_num)⟩

/-- C7: efficiency implements 0.68*(1 - (27+273)/(Thot+273)), evaluates at
100 C to 0.68*(1 - 300/373), and is strictly increasing for Thot > -273. -/
theorem efficiency_formula_and_mono :
    (∀ th : ℚ, efficiency th = 0.68 * (1 - (27 + 273) / (th + 273))) ∧
    efficiency (100 : ℚ) = 0.68 * (1 - 300 / 373) ∧
    ∀ t₁ t₂ : ℚ, -273 < t₁ → t₁ < t₂ → efficiency t₁ < efficiency t₂ := by
  refine ⟨fun th => by rw [efficiency]; ring, by norm_num [efficiency], ?_⟩
  intro t₁ t₂ h1 h2
  have hp1 : (0 : ℚ) < t₁ + 273 := by linarith
  have hp2 : t₁ + 273 < t₂ + 273 := by linarith
  have key : (300 : ℚ) / (t₂ + 273) < 300 / (t₁ + 273) :=
    div_lt_div_of_pos_left (by norm_num) hp1 hp2
  simp only [efficiency]
  nlinarith [key]

/-- Witness for C7: the monotonicity part applied at 100 < 200. -/
theorem efficiency_formula_and_mono_witness :
    (-273 : ℚ) < 100 ∧ (100 : ℚ) < 200 ∧ efficiency (100 : ℚ) < efficiency 200 :=
  ⟨by norm_num, by norm_num,
    efficiency_formula_and_mono.2.2 100 200 (by norm_num) (by norm_num)⟩

/-- C8: for nonzero eta, lte_prod_rate returns specific energy 60/eta and
rate P/(60/eta)*1000; at eta = 0 the unguarded Python division faults,
modelled by the division-fault error. -/
theorem lte_prod_rate_spec :
    (∀ P eta : ℚ, eta ≠ 0 →
      lte_prod_rate P eta = .ok (P / (60 / eta) * 1000, 60 / eta)) ∧
    ∀ P : ℚ, lte_prod_rate P 0 = .error .divisionFault := by
  constructor
  · intro P eta h
    simp [lte_prod_rate, h]
  · intro P
    simp [lte_prod_rate]

/-- Witness for C8: lte_prod_rate(60, 0.5) returns rate 500 and specific
energy 120. -/
theorem lte_prod_rate_spec_witness :
    (0.5 : ℚ) ≠ 0 ∧ lte_prod_rate (60 : ℚ) 0.5 = .ok (500, 120) := by
  have h : (0.5 : ℚ) ≠ 0 := by norm_num
  refine ⟨h, ?_⟩
  rw [lte_prod_rate_spec.1 60 0.5 h]
  norm_num

/-- C10: delta_H is the antisymmetric difference of a single table lookup:
swapping the temperatures flips the sign and equal temperatures give zero, so
every boost term built from it vanishes at equal temperatures and changes
sign when they are swapped. -/
theorem delta_H_antisymm :
    ∀ a b : K, delta_H a b = -delta_H b a ∧ delta_H a a = 0 := by
  intro a b
  constructor
  · rw [delta_H, delta_H]
    ring
  · rw [delta_H, sub_self]

/-- Unfolding equation for the interpolation loop on a cons cell. -/
theorem interpGo_cons (x : K) (p q : K × K) (l : List (K × K)) :
    interpGo x p (q :: l) =
      if x < q.1 then
        if x ≤ p.1 then p.2 else p.2 + (q.2 - p.2) * (x - p.1) / (q.1 - p.1)
      else interpGo x q l := rfl

/-- Unfolding equation for the interpolation loop on the empty list. -/
theorem interpGo_nil (x : K) (p : K × K) : interpGo x p [] = p.2 := rfl

/-- Unfolding equation for interpolation over a nonempty table. -/
theorem interp_cons (x : K) (p : K × K) (l : List (K × K)) :
    interp x (p :: l) = if x < p.1 then p.2 else interpGo x p l := rfl

/-- The interpolation loop skips every leading entry whose abscissa is at
most the lookup value, keeping the last skipped entry as accumulator. -/
theorem interpGo_append (x : K) (l₁ : List (K × K)) :
    ∀ p : K × K, (∀ r ∈ l₁, r.1 ≤ x) →
      ∀ l₂ : List (K × K), interpGo x p (l₁ ++ l₂) = interpGo x (l₁.getLastD p) l₂ := by
  induction l₁ with
  | nil => intro p _ l₂; rfl
  | cons q l ih =>
    intro p h l₂
    rw [List.cons_append, interpGo_cons,
      if_neg (not_lt.mpr (h q (List.mem_cons_self q l))),
      ih q (fun r hr => h r (List.mem_cons_of_mem q hr)) l₂, List.getLastD_cons]

/-- The interpolation loop stays between any bounds enclosing the accumulator
ordinate and all remaining table ordinates: each step returns either a stored
ordinate or a convex combination of two adjacent ones. -/
theorem interpGo_mem_Icc (x lo hi : K) :
    ∀ (l : List (K × K)) (p : K × K), p.1 ≤ x → lo ≤ p.2 → p.2 ≤ hi →
      (∀ r ∈ l, lo ≤ r.2 ∧ r.2 ≤ hi) →
      lo ≤ interpGo x p l ∧ interpGo x p l ≤ hi := by
  intro l
  induction l with
  | nil => intro p _ hl hh _; exact ⟨hl, hh⟩
  | cons q rest ih =>
    intro p hp hl hh hall
    rw [interpGo_cons]
    by_cases hq : x < q.1
    · rw [if_pos hq]
      by_cases hxp : x ≤ p.1
      · rw [if_pos hxp]; exact ⟨hl, hh⟩
      · rw [if_neg hxp]
        push_neg at hxp
        have hq2 := hall q (List.mem_cons_self q rest)
        have hpq : p.1 < q.1 := lt_of_le_of_lt hp hq
        rw [mul_div_assoc]
        have ht0 : 0 ≤ (x - p.1) / (q.1 - p.1) := div_nonneg (by linarith) (by linarith)
        have ht1 : (x - p.1) / (q.1 - p.1) ≤ 1 := by
          rw [div_le_one (by linarith)]; linarith
        constructor
        · nlinarith [mul_nonneg (by linarith : (0 : K) ≤ 1 - (x - p.1) / (q.1 - p.1))
              (by linarith : (0 : K) ≤ p.2 - lo),
            mul_nonneg ht0 (by linarith : (0 : K) ≤ q.2 - lo)]
        · nlinarith [mul_nonneg (by linarith : (0 : K) ≤ 1 - (x - p.1) / (q.1 - p.1))
              (by linarith : (0 : K) ≤ hi - p.2),
            mul_nonneg ht0 (by linarith : (0 : K) ≤ hi - q.2)]
    · rw [if_neg hq]
      push_neg at hq
      have hq2 := hall q (List.mem_cons_self q rest)
      exact ih q hq hq2.1 hq2.2 fun r hr => hall r (List.mem_cons_of_mem q hr)

/-- The specific energy computed by the source HTE pathway exceeds the one of
the literal spec composition by exactly the pressure term divided by the
efficiency and by the unit conversion: the source moves the pressure
correction out of tds into dg, while the literal composition leaves dg as the
bare interpolation of the Gibbs endpoints. -/
theorem hte_power_req_sub_literal (lg : K → K) (p To : K) :
    (hte_power_req lg p To).1 - (hteSpecLiteral lg p To).1 =
      8.314 * (0.97 * To + 273) * lg p / 1000 / efficiency (0.97 * To) /
        (2 * 1.008 * 3.6) := by
  simp only [hte_power_req, hteSpecLiteral, hte_req]
  ring

/-- Counterexample for C3: at thermal power 1, pressure e (so ln p = 1) and
outlet temperature 120000/97 (so Te = 1200 exactly), the HTE production-rate
result does not match the literal composition of the claim, because the
source dg carries the pressure term +R*(Te+273)*ln(p)/1000 that the claim
attaches only (negatively) to tds. -/
theorem hte_literal_composition_counterexample :
    hte_prod_rate Real.log 1 (Real.exp 1) (120000 / 97) ≠
      .ok (1 / (hteSpecLiteral Real.log (Real.exp 1) (120000 / 97)).1 * 1000,
        (hteSpecLiteral Real.log (Real.exp 1) (120000 / 97)).1,
        (hteSpecLiteral Real.log (Real.exp 1) (120000 / 97)).2) := by
  intro h
  have h1 : hte_prod_rate Real.log 1 (Real.exp 1) (120000 / 97) =
      .ok (1 / (hte_power_req Real.log (Real.exp 1) (120000 / 97)).1 * 1000,
        (hte_power_req Real.log (Real.exp 1) (120000 / 97)).1,
        (hte_power_req Real.log (Real.exp 1) (120000 / 97)).2) := by
    simp [hte_prod_rate]
  rw [h1] at h
  have h2 : (hte_power_req Real.log (Real.exp 1) (120000 / 97)).1 =
      (hteSpecLiteral Real.log (Real.exp 1) (120000 / 97)).1 :=
    congrArg (fun t : ℝ × ℝ × ℝ => t.2.1) (Except.ok.inj h)
  have h3 := hte_power_req_sub_literal Real.log (Real.exp 1) ((120000 : ℝ) / 97)
  rw [h2, sub_self] at h3
  have h4 : 8.314 * (0.97 * ((120000 : ℝ) / 97) + 273) * Real.log (Real.exp 1) / 1000 /
      efficiency (0.97 * ((120000 : ℝ) / 97)) / (2 * 1.008 * 3.6) ≠ 0 := by
    rw [Real.log_exp]
    norm_num [efficiency]
  exact h4 h3.symm

/-- C3 amended: for nonzero thermal power the HTE production rate follows the
claimed composition once dg also carries the pressure term
+8.314*(Te+273)*ln(p)/1000 (equivalently dg = dh - tds as in the source),
returning rate P/Pth*1000, the specific energy Pth and gamma. -/
theorem hte_composition_amended :
    ∀ Pt p To : ℝ, Pt ≠ 0 →
      hte_prod_rate Real.log Pt p To =
        .ok (Pt / (hteSpecAmended Real.log p To).1 * 1000,
          (hteSpecAmended Real.log p To).1, (hteSpecAmended Real.log p To).2) := by
  intro Pt p To h
  have key : hte_power_req Real.log p To = hteSpecAmended Real.log p To := by
    simp only [hte_power_req, hteSpecAmended, hte_req, Prod.mk.injEq]
    constructor <;> ring
  simp [hte_prod_rate, h, key]

/-- Witness for C3 amended: applied at thermal power 1, pressure 1 atm and
outlet temperature 800 C. -/
theorem hte_composition_amended_witness :
    (1 : ℝ) ≠ 0 ∧
      hte_prod_rate Real.log 1 1 800 =
        .ok (1 / (hteSpecAmended Real.log 1 800).1 * 1000,
          (hteSpecAmended Real.log 1 800).1, (hteSpecAmended Real.log 1 800).2) :=
  ⟨by norm_num, hte_composition_amended 1 1 800 (by norm_num)⟩

/-- In a table whose abscissae are pairwise nondecreasing, every abscissa is
at most the last abscissa. -/
theorem chainX_le_getLastD :
    ∀ (l : List (K × K)) (p : K × K),
      List.Chain' (fun r s : K × K => r.1 ≤ s.1) (p :: l) →
      ∀ r ∈ p :: l, r.1 ≤ (l.getLastD p).1 := by
  intro l
  induction l with
  | nil =>
    intro p _ r hr
    rw [List.mem_singleton] at hr
    rw [hr]
    rfl
  | cons q rest ih =>
    intro p hc r hr
    rw [List.getLastD_cons]
    rcases List.mem_cons.mp hr with h | h
    · have h1 : p.1 ≤ q.1 := (List.chain'_cons.mp hc).1
      have h2 := ih q (List.chain'_cons.mp hc).2 q (List.mem_cons_self q rest)
      rw [h]
      exact le_trans h1 h2
    · exact ih q (List.chain'_cons.mp hc).2 r h

/-- Looking up the accumulator abscissa itself returns its ordinate when all
remaining abscissae lie strictly beyond it. -/
theorem interpGo_at_head (a b : K) (l₂ : List (K × K)) (h₂ : ∀ r ∈ l₂, a < r.1) :
    interpGo a (a, b) l₂ = b := by
  cases l₂ with
  | nil => rfl
  | cons q rest =>
    rw [interpGo_cons, if_pos (h₂ q (List.mem_cons_self q rest)), if_pos (le_refl a)]

/-- The interpolation loop returns the stored ordinate of a non-duplicated
breakpoint exactly. -/
theorem interpGo_exact_hit (a b : K) (l₂ : List (K × K)) (h₂ : ∀ r ∈ l₂, a < r.1) :
    ∀ (l₁ : List (K × K)) (p : K × K), p.1 ≤ a → (∀ r ∈ l₁, r.1 < a) →
      interpGo a p (l₁ ++ (a, b) :: l₂) = b := by
  intro l₁
  induction l₁ with
  | nil =>
    intro p _ _
    rw [List.nil_append, interpGo_cons, if_neg (lt_irrefl a)]
    exact interpGo_at_head a b l₂ h₂
  | cons q l ih =>
    intro p _ hall
    have hq : q.1 < a := hall q (List.mem_cons_self q l)
    rw [List.cons_append, interpGo_cons, if_neg (not_lt.mpr hq.le)]
    exact ih q hq.le fun r hr => hall r (List.mem_cons_of_mem q hr)

/-- C6: table interpolation clamps and is exact at breakpoints.  Below the
first abscissa it returns the first ordinate; above the last abscissa of an
ordered table it returns the last ordinate with no extrapolation; and at a
non-duplicated breakpoint of the table it returns the stored ordinate
exactly. -/
theorem interp_clamp_and_breakpoint :
    ∀ (x a b : K) (p : K × K) (l l₁ l₂ : List (K × K)),
      (x < p.1 → interp x (p :: l) = p.2) ∧
      (List.Chain' (fun r s : K × K => r.1 ≤ s.1) (p :: l) → (l.getLastD p).1 < x →
        interp x (p :: l) = (l.getLastD p).2) ∧
      ((∀ r ∈ l₁, r.1 < a) → (∀ r ∈ l₂, a < r.1) →
        interp a (l₁ ++ (a, b) :: l₂) = b) := by
  intro x a b p l l₁ l₂
  refine ⟨fun h => by rw [interp_cons, if_pos h], fun hc hlast => ?_, fun h₁ h₂ => ?_⟩
  · have hall : ∀ r ∈ p :: l, r.1 ≤ x :=
      fun r hr => le_of_lt (lt_of_le_of_lt (chainX_le_getLastD l p hc r hr) hlast)
    rw [interp_cons, if_neg (not_lt.mpr (hall p (List.mem_cons_self p l)))]
    have hskip := interpGo_append x l p (fun r hr => hall r (List.mem_cons_of_mem p hr)) []
    rw [List.append_nil] at hskip
    rw [hskip, interpGo_nil]
  · cases l₁ with
    | nil =>
      rw [List.nil_append, interp_cons, if_neg (lt_irrefl a)]
      exact interpGo_at_head a b l₂ h₂
    | cons q l₁t =>
      have hq : q.1 < a := h₁ q (List.mem_cons_self q l₁t)
      rw [List.cons_append, interp_cons, if_neg (not_lt.mpr hq.le)]
      exact interpGo_exact_hit a b l₂ h₂ l₁t q hq.le
        fun r hr => h₁ r (List.mem_cons_of_mem q hr)

/-- Witness for C6 on the SI specific-energy table: lookup at 700 clamps to
the first ordinate, lookup at 1100 clamps to the last ordinate, and the
breakpoint 800 returns exactly 400*1000/3600. -/
theorem interp_clamp_and_breakpoint_witness :
    ((700 : ℚ) < 750 ∧ interp (700 : ℚ) siTable = 1000 / 3600 * 600) ∧
    ((1000 : ℚ) < 1100 ∧ interp (1100 : ℚ) siTable = 1000 / 3600 * 230) ∧
    interp (800 : ℚ) siTable = 400 * 1000 / 3600 := by
  refine ⟨⟨by norm_num, ?_⟩, ⟨by norm_num, ?_⟩, ?_⟩
  · exact (interp_clamp_and_breakpoint (700 : ℚ) 0 0 (750, 1000 / 3600 * 600)
      [(800, 1000 / 3600 * 400), (850, 1000 / 3600 * 300), (900, 1000 / 3600 * 265),
        (950, 1000 / 3600 * 245), (1000, 1000 / 3600 * 230)] [] []).1 (by norm_num)
  · exact (interp_clamp_and_breakpoint (1100 : ℚ) 0 0 (750, 1000 / 3600 * 600)
      [(800, 1000 / 3600 * 400), (850, 1000 / 3600 * 300), (900, 1000 / 3600 * 265),
        (950, 1000 / 3600 * 245), (1000, 1000 / 3600 * 230)] [] []).2.1
      (by norm_num [List.chain'_cons]) (by norm_num)
  · have h := (interp_clamp_and_breakpoint (0 : ℚ) 800 (1000 / 3600 * 400)
      (0, 0) [] [(750, 1000 / 3600 * 600)]
      [(850, 1000 / 3600 * 300), (900, 1000 / 3600 * 265),
        (950, 1000 / 3600 * 245), (1000, 1000 / 3600 * 230)]).2.2
      (by intro r hr; fin_cases hr; norm_num)
      (by intro r hr; fin_cases hr <;> norm_num)
    rw [show ([(750, 1000 / 3600 * 600)] ++ (800, 1000 / 3600 * 400) ::
        [(850, 1000 / 3600 * 300), (900, 1000 / 3600 * 265),
          (950, 1000 / 3600 * 245), (1000, 1000 / 3600 * 230)] : List (ℚ × ℚ)) =
      siTable from rfl] at h
    rw [h]
    norm_num

/-- Summing a map that is zero on every list element gives zero. -/
theorem sum_map_ite_zero (l : List (ℕ × ℕ)) (P : ℕ × ℕ → Prop) [DecidablePred P]
    (c : ℚ) (h : ∀ x ∈ l, ¬ P x) :
    (l.map fun b => if P b then c else 0).sum = 0 := by
  apply List.sum_eq_zero
  intro y hy
  obtain ⟨x, hx, rfl⟩ := List.mem_map.mp hy
  rw [if_neg (h x hx)]

/-- Over a duplicate-free list containing exactly one element satisfying P,
the sum of the indicator map collapses to the single contribution. -/
theorem sum_map_ite_unique (P : ℕ × ℕ → Prop) [DecidablePred P] (a : ℕ × ℕ)
    (c : ℚ) (hPa : P a) (huniq : ∀ b, P b → b = a) :
    ∀ l : List (ℕ × ℕ), l.Nodup → a ∈ l →
      (l.map fun b => if P b then c else 0).sum = c := by
  intro l
  induction l with
  | nil => intro _ h; exact absurd h (List.not_mem_nil a)
  | cons b l ih =>
    intro hnd hmem
    rw [List.map_cons, List.sum_cons]
    by_cases hb : P b
    · have hba : b = a := huniq b hb
      rw [if_pos hb, sum_map_ite_zero]
      · rw [add_zero]
      · intro x hx hPx
        have : x = a := huniq x hPx
        subst this
        subst hba
        exact (List.nodup_cons.mp hnd).1 hx
    · have ha : a ∈ l := by
        rcases List.mem_cons.mp hmem with h | h
        · exact absurd (h ▸ hPa) hb
        · exact h
      rw [if_neg hb, ih (List.nodup_cons.mp hnd).2 ha, zero_add]

/-- Pointwise sums of maps distribute over list summation. -/
theorem sum_map_add_distrib (l : List (ℕ × ℕ)) (g h : ℕ × ℕ → ℚ) :
    (l.map fun x => g x + h x).sum = (l.map g).sum + (l.map h).sum := by
  induction l with
  | nil => simp
  | cons b l ih => simp only [List.map_cons, List.sum_cons, ih]; ring

/-- Splitting the per-day sum over a freshly prepended row. -/
theorem daySum_cons (f : FuelRow → ℚ) (r : FuelRow) (rows : List FuelRow)
    (mo da : ℕ) :
    daySum f (r :: rows) mo da =
      (if r.day = da ∧ r.month = mo then f r else 0) + daySum f rows mo da := by
  rw [daySum, daySum, List.filter_cons]
  by_cases h : r.day = da ∧ r.month = mo
  · simp [h]
  · simp [h]

set_option maxRecDepth 4000 in
/-- The fixed calendar has 365 day slots. -/
theorem calendar_length : calendar.length = 365 := rfl

/-- The fixed calendar has no duplicated (month, day) key: within a month the
days are distinct, and entries of different months differ in the first
component. -/
theorem calendar_nodup : calendar.Nodup := by
  rw [calendar, List.nodup_flatMap]
  constructor
  · intro mo _
    apply List.Nodup.map
    · intro a b h
      exact (Prod.ext_iff.mp h).2
    · exact List.nodup_range' _ _ _ (by norm_num)
  · refine List.Pairwise.imp ?_ (List.nodup_range' _ _ _ (by norm_num))
    intro a b hab
    intro x hxa hxb
    obtain ⟨da, _, hda⟩ := List.mem_map.mp hxa
    obtain ⟨db, _, hdb⟩ := List.mem_map.mp hxb
    apply hab
    exact (Prod.ext_iff.mp (hda.trans hdb.symm)).1

/-- Double-counting: iterating the per-day sums over the whole calendar
recovers the raw column sum, provided every row key occurs in the calendar. -/
theorem sum_daySum (f : FuelRow → ℚ) :
    ∀ rows : List FuelRow, (∀ r ∈ rows, (r.month, r.day) ∈ calendar) →
      (calendar.map fun md => daySum f rows md.1 md.2).sum = (rows.map f).sum := by
  intro rows
  induction rows with
  | nil => simp [daySum]
  | cons r rows ih =>
    intro hdate
    have hr : (r.month, r.day) ∈ calendar := hdate r (List.mem_cons_self r rows)
    have hrows : ∀ x ∈ rows, (x.month, x.day) ∈ calendar :=
      fun x hx => hdate x (List.mem_cons_of_mem r hx)
    have hsplit : (calendar.map fun md => daySum f (r :: rows) md.1 md.2) =
        calendar.map fun md =>
          (if r.day = md.2 ∧ r.month = md.1 then f r else 0) +
            daySum f rows md.1 md.2 := by
      apply List.map_congr_left
      intro md _
      exact daySum_cons f r rows md.1 md.2
    rw [hsplit, sum_map_add_distrib, ih hrows,
      sum_map_ite_unique (fun md => r.day = md.2 ∧ r.month = md.1) (r.month, r.day)
        (f r) ⟨rfl, rfl⟩
        (fun b hb => by
          obtain ⟨h1, h2⟩ := hb
          exact Prod.ext h2.symm h1.symm)
        calendar calendar_nodup hr,
      List.map_cons, List.sum_cons]

/-- Rounding to two decimals is the identity on integer multiples of 1/100. -/
theorem round2_cents (k : ℤ) : round2 ((k : ℚ) / 100) = (k : ℚ) / 100 := by
  rw [round2, div_mul_cancel₀ _ (by norm_num : (100 : ℚ) ≠ 0), round_intCast]

/-- A sum of integer multiples of 1/100 is an integer multiple of 1/100. -/
theorem sum_cents :
    ∀ l : List ℚ, (∀ x ∈ l, ∃ k : ℤ, x = k / 100) → ∃ k : ℤ, l.sum = (k : ℚ) / 100 := by
  intro l
  induction l with
  | nil => exact fun _ => ⟨0, by norm_num⟩
  | cons a l ih =>
    intro h
    obtain ⟨k, hk⟩ := h a (List.mem_cons_self a l)
    obtain ⟨m, hm⟩ := ih fun x hx => h x (List.mem_cons_of_mem a hx)
    refine ⟨k + m, ?_⟩
    rw [List.sum_cons, hk, hm]
    push_cast
    ring

/-- When every fuel value is a whole number of hundredths, the per-day
rounding inside the aggregation is the identity. -/
theorem dailyTotals_eq_daySum (f : FuelRow → ℚ) (rows : List FuelRow)
    (hc : ∀ r ∈ rows, ∃ k : ℤ, f r = k / 100) :
    dailyTotals f rows = calendar.map fun md => daySum f rows md.1 md.2 := by
  rw [dailyTotals]
  apply List.map_congr_left
  intro md _
  have hall : ∀ x ∈ (rows.filter fun r => r.day = md.2 ∧ r.month = md.1).map f,
      ∃ k : ℤ, x = k / 100 := by
    intro x hx
    obtain ⟨r, hrf, rfl⟩ := List.mem_map.mp hx
    exact hc r (List.mem_of_mem_filter hrf)
  obtain ⟨k, hk⟩ := sum_cents _ hall
  rw [daySum, hk, round2_cents]

/-- The printed average round2(S/365) agrees with the printed total
round2(S) divided by 365 to within a hundredth. -/
theorem round2_avg_close (S : ℚ) :
    |round2 (S / 365) - round2 S / 365| ≤ 1 / 100 := by
  have h1 := abs_sub_round (S / 365 * 100)
  have h2 := abs_sub_round (S * 100)
  rw [round2, round2]
  rw [abs_le] at h1 h2 ⊢
  constructor
  · have := h1.1
    have := h2.2
    linarith
  · have := h1.2
    have := h2.1
    linarith

/-- C9: for a well-formed input (every row a valid (month, day) of the fixed
calendar and every fuel value a whole number of hundredths of a gallon), the
per-day aggregation is loss-free: the sum of the aggregated daily totals of a
fuel column equals the sum of that column over all raw rows; and the reported
average per day differs from the reported total divided by 365 by at most one
hundredth, the rounding tolerance. -/
theorem fuel_aggregation_lossfree :
    ∀ (rows : List FuelRow) (f : FuelRow → ℚ),
      (∀ r ∈ rows, (r.month, r.day) ∈ calendar) →
      (∀ r ∈ rows, ∃ k : ℤ, f r = k / 100) →
      (dailyTotals f rows).sum = (rows.map f).sum ∧
      |round2 ((dailyTotals f rows).sum / ((dailyTotals f rows).length : ℚ)) -
        round2 ((dailyTotals f rows).sum) / 365| ≤ 1 / 100 := by
  intro rows f hdate hcents
  have hlen : (dailyTotals f rows).length = 365 := by
    rw [dailyTotals, List.length_map, calendar_length]
  have hsum : (dailyTotals f rows).sum = (rows.map f).sum := by
    rw [dailyTotals_eq_daySum f rows hcents]
    exact sum_daySum f rows hdate
  refine ⟨hsum, ?_⟩
  rw [hlen]
  have hcast : ((365 : ℕ) : ℚ) = 365 := by norm_num
  rw [hcast]
  exact round2_avg_close _

/-- Witness for C9: three concrete rows, two of them sharing the day
January 1, with cent-valued fuel quantities. -/
theorem fuel_aggregation_lossfree_witness :
    (∀ r ∈ ([⟨1, 1, 1.25, 0, 0⟩, ⟨1, 1, 2.5, 0.75, 0⟩, ⟨2, 28, 3, 1, 0.25⟩] :
        List FuelRow), (r.month, r.day) ∈ calendar) ∧
    (∀ r ∈ ([⟨1, 1, 1.25, 0, 0⟩, ⟨1, 1, 2.5, 0.75, 0⟩, ⟨2, 28, 3, 1, 0.25⟩] :
        List FuelRow), ∃ k : ℤ, r.unleaded = k / 100) ∧
    (dailyTotals (fun r => r.unleaded)
        [⟨1, 1, 1.25, 0, 0⟩, ⟨1, 1, 2.5, 0.75, 0⟩, ⟨2, 28, 3, 1, 0.25⟩]).sum =
      (([⟨1, 1, 1.25, 0, 0⟩, ⟨1, 1, 2.5, 0.75, 0⟩, ⟨2, 28, 3, 1, 0.25⟩] :
        List FuelRow).map fun r => r.unleaded).sum := by
  have hdate : ∀ r ∈ ([⟨1, 1, 1.25, 0, 0⟩, ⟨1, 1, 2.5, 0.75, 0⟩,
      ⟨2, 28, 3, 1, 0.25⟩] : List FuelRow), (r.month, r.day) ∈ calendar := by
    intro r hr
    fin_cases hr <;> decide
  have hcents : ∀ r ∈ ([⟨1, 1, 1.25, 0, 0⟩, ⟨1, 1, 2.5, 0.75, 0⟩,
      ⟨2, 28, 3, 1, 0.25⟩] : List FuelRow), ∃ k : ℤ, r.unleaded = k / 100 := by
    intro r hr
    fin_cases hr
    · exact ⟨125, by norm_num⟩
    · exact ⟨250, by norm_num⟩
    · exact ⟨300, by norm_num⟩
  exact ⟨hdate, hcents,
    (fuel_aggregation_lossfree _ (fun r => r.unleaded) hdate hcents).1⟩

/-- Closed form of interpolation over a two-point table inside its domain. -/
theorem interp_two (x a b ya yb : K) (hab : a < b) (h1 : a ≤ x) (h2 : x ≤ b) :
    interp x [(a, ya), (b, yb)] = ya + (yb - ya) * (x - a) / (b - a) := by
  rw [interp_cons, if_neg (not_lt.mpr h1), interpGo_cons]
  by_cases hb : x < b
  · rw [if_pos hb]
    by_cases hxa : x ≤ a
    · have hxa2 : x = a := le_antisymm hxa h1
      rw [if_pos hxa, hxa2, sub_self, mul_zero, zero_div, add_zero]
    · rw [if_neg hxa]
  · have hxb : x = b := le_antisymm h2 (not_lt.mp hb)
    rw [if_neg hb, interpGo_nil, hxb]
    have hba : b - a ≠ 0 := sub_ne_zero.mpr (ne_of_gt hab)
    field_simp

set_option maxHeartbeats 1000000 in
/-- Numeric bounds for the vaporization correction delta_H(243, 242). -/
theorem delta_H_vap_bounds :
    (31.6 : ℝ) ≤ delta_H 243 242 ∧ delta_H (243 : ℝ) 242 ≤ 31.7 := by
  constructor <;> norm_num [delta_H, interp, interpGo, entTable]

set_option maxHeartbeats 1000000 in
/-- The enthalpy table lookup at the feedwater temperature 170 C. -/
theorem ent_at_170 : interp (170 : ℝ) entTable = 64919 / 5000 := by
  norm_num [interp, interpGo, entTable]

/-- Bounds for the enthalpy lookup at or above 750 C: the walk lands in the
table suffix from the 750 entry on, whose ordinates lie between 72.534 and
83.459. -/
theorem ent_ge750 (x : K) (hx : (750 : K) ≤ x) :
    (72.534 : K) ≤ interp x entTable ∧ interp x entTable ≤ 83.459 := by
  have hsplit : entTable (K := K) = (25, 1.9468) ::
      (([(50, 3.8255), (75, 5.7076), (100, 7.5974), (125, 9.5),
        (150, 11.423), (175, 13.374), (200, 15.368), (225, 17.421),
        (242.56, 18.912), (242.56, 50.49), (250, 50.977), (275, 52.4),
        (300, 53.657), (325, 54.823), (350, 55.935), (375, 57.012), (400, 58.066),
        (425, 59.106), (450, 60.136), (475, 61.16), (500, 62.182), (525, 63.203),
        (550, 64.225), (575, 65.249), (600, 66.276), (625, 67.306), (650, 68.341),
        (675, 69.381), (700, 70.426), (725, 71.477), (750, 72.534)] : List (K × K)) ++
       [(775, 73.597), (800, 74.666), (825, 75.742), (850, 76.825), (875, 77.914),
        (900, 79.009), (925, 80.112), (950, 81.221), (975, 82.337), (1000, 83.459)]) :=
    rfl
  rw [hsplit, interp_cons, if_neg (not_lt.mpr (by linarith : (25 : K) ≤ x))]
  rw [interpGo_append x _ _ (by intro r hr; fin_cases hr <;> norm_num <;> linarith) _]
  have hlast : ([(50, 3.8255), (75, 5.7076), (100, 7.5974), (125, 9.5),
      (150, 11.423), (175, 13.374), (200, 15.368), (225, 17.421),
      (242.56, 18.912), (242.56, 50.49), (250, 50.977), (275, 52.4),
      (300, 53.657), (325, 54.823), (350, 55.935), (375, 57.012), (400, 58.066),
      (425, 59.106), (450, 60.136), (475, 61.16), (500, 62.182), (525, 63.203),
      (550, 64.225), (575, 65.249), (600, 66.276), (625, 67.306), (650, 68.341),
      (675, 69.381), (700, 70.426), (725, 71.477), (750, 72.534)] : List (K × K)).getLastD
      (25, 1.9468) = ((750 : K), 72.534) := rfl
  rw [hlast]
  exact interpGo_mem_Icc x 72.534 83.459 _ ((750 : K), 72.534) hx (by norm_num)
    (by norm_num) (by intro r hr; fin_cases hr <;> constructor <;> norm_num)

/-- The SI specific-energy lookup always lies between its smallest and
largest tabulated ordinates 575/9 and 500/3. -/
theorem si_interp_bounds (x : K) :
    (575 / 9 : K) ≤ interp x siTable ∧ interp x siTable ≤ 500 / 3 := by
  rw [siTable, interp_cons]
  by_cases h : x < (750 : K)
  · rw [if_pos (by exact h)]
    norm_num
  · rw [if_neg (by exact h)]
    exact interpGo_mem_Icc x (575 / 9) (500 / 3) _ ((750 : K), 1000 / 3600 * 600)
      (not_lt.mp h) (by norm_num) (by norm_num)
      (by intro r hr; fin_cases hr <;> constructor <;> norm_num)

/-- The conversion efficiency is positive from 100 C on. -/
theorem eff_pos (T : K) (hT : 100 ≤ T) : 0 < efficiency T := by
  rw [efficiency]
  have h1 : (0 : K) < T + 273 := by linarith
  have h2 : ((27 : K) + 273) / (T + 273) < 1 := by
    rw [div_lt_one h1]
    linarith
  nlinarith

/-- Elementary bounds of the electrical fraction as a quotient of a
nonnegative share over a positive total. -/
theorem gamma_div_bounds (g c : K) (hg : 0 ≤ g) (hc : 0 ≤ c) (hpos : 0 < g + c) :
    0 ≤ g / (g + c) ∧ g / (g + c) ≤ 1 :=
  ⟨div_nonneg hg hpos.le, (div_le_one hpos).mpr (by linarith)⟩

/-- The natural logarithm of a pressure between 1 and 20000 atm lies in
the interval from 0 to 10. -/
theorem log_pressure_bounds (p : ℝ) (h1 : 1 ≤ p) (h2 : p ≤ 20000) :
    0 ≤ Real.log p ∧ Real.log p ≤ 10 := by
  refine ⟨Real.log_nonneg h1, ?_⟩
  have hp : (0 : ℝ) < p := by linarith
  rw [Real.log_le_iff_le_exp hp]
  have e1 : (2.7182818283 : ℝ) < Real.exp 1 := Real.exp_one_gt_d9
  have e2 : (2.7182818283 : ℝ) ^ (10 : ℕ) < Real.exp 1 ^ (10 : ℕ) :=
    pow_lt_pow_left₀ e1 (by norm_num) (by norm_num)
  have e3 : Real.exp 1 ^ (10 : ℕ) = Real.exp 10 := by
    rw [← Real.exp_nat_mul]
    norm_num
  have e4 : (20000 : ℝ) < (2.7182818283 : ℝ) ^ (10 : ℕ) := by norm_num
  linarith

/-- With nondecreasing ordinates, the interpolation loop never returns less
than the accumulator ordinate. -/
theorem interpGo_ge_head (x : K) :
    ∀ (l : List (K × K)) (p : K × K),
      List.Chain' (fun r s : K × K => r.2 ≤ s.2) (p :: l) → p.1 ≤ x →
      p.2 ≤ interpGo x p l := by
  intro l
  induction l with
  | nil => intro p _ _; rw [interpGo_nil]
  | cons q rest ih =>
    intro p hc hp
    have hpq : p.2 ≤ q.2 := (List.chain'_cons.mp hc).1
    rw [interpGo_cons]
    by_cases hq : x < q.1
    · rw [if_pos hq]
      by_cases hxp : x ≤ p.1
      · rw [if_pos hxp]
      · rw [if_neg hxp]
        push_neg at hxp
        have hpq1 : p.1 < q.1 := lt_of_le_of_lt hp hq
        have ht0 : 0 ≤ (x - p.1) / (q.1 - p.1) := div_nonneg (by linarith) (by linarith)
        rw [mul_div_assoc]
        nlinarith [mul_nonneg (sub_nonneg.mpr hpq) ht0]
    · rw [if_neg hq]
      push_neg at hq
      exact le_trans hpq (ih q (List.chain'_cons.mp hc).2 hq)

/-- Monotonicity of the interpolation loop in the lookup value, over a table
with nondecreasing abscissae and nondecreasing ordinates. -/
theorem interpGo_le_of_le (x y : K) (hxy : x ≤ y) :
    ∀ (l : List (K × K)) (p : K × K),
      List.Chain' (fun r s : K × K => r.1 ≤ s.1) (p :: l) →
      List.Chain' (fun r s : K × K => r.2 ≤ s.2) (p :: l) → p.1 ≤ x →
      interpGo x p l ≤ interpGo y p l := by
  intro l
  induction l with
  | nil => intro p _ _ _; rw [interpGo_nil, interpGo_nil]
  | cons q rest ih =>
    intro p hcx hcy hp
    have hpq : p.2 ≤ q.2 := (List.chain'_cons.mp hcy).1
    rw [interpGo_cons, interpGo_cons]
    by_cases hq : y < q.1
    · have hq2 : x < q.1 := lt_of_le_of_lt hxy hq
      rw [if_pos hq, if_pos hq2]
      by_cases hxp : x ≤ p.1
      · rw [if_pos hxp]
        by_cases hyp : y ≤ p.1
        · rw [if_pos hyp]
        · rw [if_neg hyp]
          push_neg at hyp
          have hpq1 : p.1 < q.1 := lt_of_lt_of_le hyp hq.le
          have ht0 : 0 ≤ (y - p.1) / (q.1 - p.1) := div_nonneg (by linarith) (by linarith)
          rw [mul_div_assoc]
          nlinarith [mul_nonneg (sub_nonneg.mpr hpq) ht0]
      · push_neg at hxp
        have hyp : ¬ y ≤ p.1 := by push_neg; linarith
        rw [if_neg (not_le.mpr hxp), if_neg hyp]
        have hpq1 : p.1 < q.1 := lt_of_le_of_lt hp hq2
        rw [mul_div_assoc, mul_div_assoc]
        have hdiv : (x - p.1) / (q.1 - p.1) ≤ (y - p.1) / (q.1 - p.1) :=
          (div_le_div_iff_of_pos_right (by linarith)).mpr (by linarith)
        nlinarith [mul_le_mul_of_nonneg_left hdiv (sub_nonneg.mpr hpq)]
    · rw [if_neg hq]
      push_neg at hq
      by_cases hq2 : x < q.1
      · rw [if_pos hq2]
        have hval : interpGo y q rest ≥ q.2 :=
          interpGo_ge_head y rest q (List.chain'_cons.mp hcy).2 hq
        by_cases hxp : x ≤ p.1
        · rw [if_pos hxp]
          linarith
        · rw [if_neg hxp]
          push_neg at hxp
          have hpq1 : p.1 < q.1 := lt_of_le_of_lt hp hq2
          have ht1 : (x - p.1) / (q.1 - p.1) ≤ 1 := by
            rw [div_le_one (by linarith)]; linarith
          have ht0 : 0 ≤ (x - p.1) / (q.1 - p.1) := div_nonneg (by linarith) (by linarith)
          rw [mul_div_assoc]
          nlinarith [mul_nonneg (sub_nonneg.mpr hpq) (by linarith : (0 : K) ≤ 1 - (x - p.1) / (q.1 - p.1))]
      · rw [if_neg hq2]
        push_neg at hq2
        exact ih q (List.chain'_cons.mp hcx).2 (List.chain'_cons.mp hcy).2 hq2

/-- Monotonicity of table interpolation in the lookup value, for a table with
nondecreasing abscissae and nondecreasing ordinates. -/
theorem interp_mono (x y : K) (hxy : x ≤ y) (t : List (K × K))
    (hcx : List.Chain' (fun r s : K × K => r.1 ≤ s.1) t)
    (hcy : List.Chain' (fun r s : K × K => r.2 ≤ s.2) t) :
    interp x t ≤ interp y t := by
  cases t with
  | nil => rw [interp, interp]
  | cons p l =>
    rw [interp_cons, interp_cons]
    by_cases h1 : x < p.1
    · rw [if_pos h1]
      by_cases h2 : y < p.1
      · rw [if_pos h2]
      · rw [if_neg h2]
        exact interpGo_ge_head y l p hcy (not_lt.mp h2)
    · have h2 : ¬ y < p.1 := by push_neg at h1 ⊢; linarith
      rw [if_neg h1, if_neg h2]
      exact interpGo_le_of_le x y hxy l p hcx hcy (not_lt.mp h1)

/-- The enthalpy table abscissae are nondecreasing. -/
theorem entTable_chainX :
    List.Chain' (fun r s : ℝ × ℝ => r.1 ≤ s.1) entTable := by
  norm_num [entTable, List.chain'_cons, List.chain'_singleton]

/-- The enthalpy table ordinates are nondecreasing. -/
theorem entTable_chainY :
    List.Chain' (fun r s : ℝ × ℝ => r.2 ≤ s.2) entTable := by
  norm_num [entTable, List.chain'_cons, List.chain'_singleton]

/-- The electrical fraction of the HTE pathway as a quotient of shares. -/
theorem hte_power_req_gamma (lg : K → K) (p To : K) :
    (hte_power_req lg p To).2 =
      ((hte_req lg p (0.97 * To)).1 / efficiency (0.97 * To)) /
        ((hte_req lg p (0.97 * To)).1 / efficiency (0.97 * To) +
          ((hte_req lg p (0.97 * To)).2 + delta_H 243 242)) := rfl

/-- The electrical fraction of the boosted HTE pathway as a quotient of
shares. -/
theorem hte2_power_req_gamma (lg : K → K) (p To Te : K) :
    (hte2_power_req lg p To Te).2 =
      (((hte_req lg p Te).1 + 0.95 * ((hte_req lg p Te).2 - (hte_req lg p (0.97 * To)).2)) /
          efficiency (0.97 * To)) /
        ((((hte_req lg p Te).1 + 0.95 * ((hte_req lg p Te).2 - (hte_req lg p (0.97 * To)).2)) /
          efficiency (0.97 * To)) +
          ((hte_req lg p (0.97 * To)).2 + delta_H 243 242)) := rfl

/-- The electrical requirement of hte_req: the Gibbs interpolation plus the
pressure term that the source moves over from tds. -/
theorem hte_req_fst (lg : K → K) (p Te : K) :
    (hte_req lg p Te).1 = interp Te dgTable + 8.314 * (Te + 273) * lg p / 1000 := by
  simp only [hte_req]
  ring

/-- The thermal requirement of hte_req: the entropy-term interpolation with
the pressure correction subtracted. -/
theorem hte_req_snd (lg : K → K) (p Te : K) :
    (hte_req lg p Te).2 = interp Te tdsTable - 8.314 * (Te + 273) * lg p / 1000 := rfl

/-- The thermal share tds plus the vaporization correction is nonnegative on
the electrolysis temperature range for logarithms of pressure up to 10. -/
theorem tds_vap_nonneg (T L : ℝ) (h1 : 100 ≤ T) (h2 : T ≤ 1200)
    (hL0 : 0 ≤ L) (hL1 : L ≤ 10) :
    0 ≤ interp T tdsTable - 8.314 * (T + 273) * L / 1000 + delta_H 243 242 := by
  have hB : interp T tdsTable = 17 + ((99 : ℝ) - 17) * (T - 100) / (1200 - 100) :=
    interp_two T 100 1200 17 99 (by norm_num) h1 h2
  have hdH := (delta_H_vap_bounds).1
  rw [hB]
  nlinarith [mul_nonneg (by linarith : (0 : ℝ) ≤ T - 100) hL0,
    mul_nonneg (by linarith : (0 : ℝ) ≤ T - 100) (by linarith : (0 : ℝ) ≤ 10 - L),
    mul_nonneg (by linarith : (0 : ℝ) ≤ 1200 - T) hL0,
    mul_nonneg (by linarith : (0 : ℝ) ≤ 1200 - T) (by linarith : (0 : ℝ) ≤ 10 - L)]

/-- Electrical-fraction bounds for the plain HTE pathway under the amended
pressure bound. -/
theorem hte_gamma_in_unit (p To : ℝ) (hp1 : 1 ≤ p) (hp2 : p ≤ 20000)
    (h1 : 100 ≤ 0.97 * To) (h2 : 0.97 * To ≤ 1200) :
    0 ≤ (hte_power_req Real.log p To).2 ∧ (hte_power_req Real.log p To).2 ≤ 1 := by
  obtain ⟨hL0, hL1⟩ := log_pressure_bounds p hp1 hp2
  have heff := eff_pos (0.97 * To) h1
  have hdgA : (165 : ℝ) ≤ interp (0.97 * To) dgTable := by
    have hA : interp (0.97 * To) dgTable =
        225 + ((165 : ℝ) - 225) * (0.97 * To - 100) / (1200 - 100) :=
      interp_two (0.97 * To) 100 1200 225 165 (by norm_num) h1 h2
    rw [hA]
    linarith
  have hc0 : 0 ≤ 8.314 * (0.97 * To + 273) * Real.log p / 1000 := by
    apply div_nonneg _ (by norm_num)
    exact mul_nonneg (mul_nonneg (by norm_num) (by linarith)) hL0
  have hfst : 0 < (hte_req Real.log p (0.97 * To)).1 := by
    rw [hte_req_fst]
    linarith
  have hsnd : 0 ≤ (hte_req Real.log p (0.97 * To)).2 + delta_H 243 242 := by
    rw [hte_req_snd]
    exact tds_vap_nonneg (0.97 * To) (Real.log p) h1 h2 hL0 hL1
  rw [hte_power_req_gamma]
  exact gamma_div_bounds _ _ (div_nonneg hfst.le heff.le) hsnd
    (add_pos_of_pos_of_nonneg (div_pos hfst heff) hsnd)

/-- The electrical requirement of the boosted HTE pathway is positive on the
amended pressure and temperature box. -/
theorem hte2_num_pos (p To Te : ℝ) (hp1 : 1 ≤ p) (hp2 : p ≤ 20000)
    (h1 : 100 ≤ 0.97 * To) (h2 : 0.97 * To ≤ 1200) (h3 : 100 ≤ Te) (h4 : Te ≤ 1200) :
    0 < (hte_req Real.log p Te).1 +
      0.95 * ((hte_req Real.log p Te).2 - (hte_req Real.log p (0.97 * To)).2) := by
  obtain ⟨hL0, hL1⟩ := log_pressure_bounds p hp1 hp2
  rw [hte_req_fst, hte_req_snd, hte_req_snd]
  have hATe : interp Te dgTable = 225 + ((165 : ℝ) - 225) * (Te - 100) / (1200 - 100) :=
    interp_two Te 100 1200 225 165 (by norm_num) h3 h4
  have hBTe : interp Te tdsTable = 17 + ((99 : ℝ) - 17) * (Te - 100) / (1200 - 100) :=
    interp_two Te 100 1200 17 99 (by norm_num) h3 h4
  have hBTr : interp (0.97 * To) tdsTable =
      17 + ((99 : ℝ) - 17) * (0.97 * To - 100) / (1200 - 100) :=
    interp_two (0.97 * To) 100 1200 17 99 (by norm_num) h1 h2
  rw [hATe, hBTe, hBTr]
  nlinarith [mul_nonneg (by linarith : (0 : ℝ) ≤ Te - 100) hL0,
    mul_nonneg (by linarith : (0 : ℝ) ≤ 1200 - Te) hL0,
    mul_nonneg (by linarith : (0 : ℝ) ≤ Te - 100) (by linarith : (0 : ℝ) ≤ 10 - Real.log p),
    mul_nonneg (by linarith : (0 : ℝ) ≤ 1200 - Te) (by linarith : (0 : ℝ) ≤ 10 - Real.log p),
    mul_nonneg (by linarith : (0 : ℝ) ≤ 0.97 * To - 100) hL0,
    mul_nonneg (by linarith : (0 : ℝ) ≤ 1200 - 0.97 * To) hL0,
    mul_nonneg (by linarith : (0 : ℝ) ≤ 0.97 * To - 100) (by linarith : (0 : ℝ) ≤ 10 - Real.log p),
    mul_nonneg (by linarith : (0 : ℝ) ≤ 1200 - 0.97 * To) (by linarith : (0 : ℝ) ≤ 10 - Real.log p)]

/-- Electrical-fraction bounds for the boosted HTE pathway under the amended
pressure bound. -/
theorem hte2_gamma_in_unit (p To Te : ℝ) (hp1 : 1 ≤ p) (hp2 : p ≤ 20000)
    (h1 : 100 ≤ 0.97 * To) (h2 : 0.97 * To ≤ 1200) (h3 : 100 ≤ Te) (h4 : Te ≤ 1200) :
    0 ≤ (hte2_power_req Real.log p To Te).2 ∧ (hte2_power_req Real.log p To Te).2 ≤ 1 := by
  obtain ⟨hL0, hL1⟩ := log_pressure_bounds p hp1 hp2
  have heff := eff_pos (0.97 * To) h1
  have hnum := hte2_num_pos p To Te hp1 hp2 h1 h2 h3 h4
  have hsnd : 0 ≤ (hte_req Real.log p (0.97 * To)).2 + delta_H 243 242 := by
    rw [hte_req_snd]
    exact tds_vap_nonneg (0.97 * To) (Real.log p) h1 h2 hL0 hL1
  rw [hte2_power_req_gamma]
  exact gamma_div_bounds _ _ (div_nonneg hnum.le heff.le) hsnd
    (add_pos_of_pos_of_nonneg (div_pos hnum heff) hsnd)

/-- On the successful branch the boosted SI power requirement returns the
explicit share expressions. -/
theorem si2_power_req_ok (eta To Ts : K) (hTs : 750 ≤ Ts) :
    si2_power_req eta To Ts = .ok
      (1 / eta * (1 / 0.95) *
          (interp (0.97 * To) siTable / delta_H (0.97 * To) 170 * delta_H Ts (0.97 * To) /
            (2 * 1.008 * 3.6)) +
        (interp Ts siTable -
          interp (0.97 * To) siTable / delta_H (0.97 * To) 170 * delta_H Ts (0.97 * To) /
            (2 * 1.008 * 3.6)),
       1 / eta * (1 / 0.95) *
          (interp (0.97 * To) siTable / delta_H (0.97 * To) 170 * delta_H Ts (0.97 * To) /
            (2 * 1.008 * 3.6)) /
        (1 / eta * (1 / 0.95) *
          (interp (0.97 * To) siTable / delta_H (0.97 * To) 170 * delta_H Ts (0.97 * To) /
            (2 * 1.008 * 3.6)) +
         (interp Ts siTable -
          interp (0.97 * To) siTable / delta_H (0.97 * To) 170 * delta_H Ts (0.97 * To) /
            (2 * 1.008 * 3.6)))) := by
  simp only [si2_power_req]
  rw [if_pos hTs]

/-- The electrical fraction of the boosted SI pathway as a quotient of
shares, on the successful branch. -/
theorem si2_prod_rate_gamma (P To Ts : ℝ) (hTs : 750 ≤ Ts) :
    gammaOf (si2_prod_rate P To Ts) =
      1 / efficiency To * (1 / 0.95) *
          (interp (0.97 * To) siTable / delta_H (0.97 * To) 170 * delta_H Ts (0.97 * To) /
            (2 * 1.008 * 3.6)) /
        (1 / efficiency To * (1 / 0.95) *
          (interp (0.97 * To) siTable / delta_H (0.97 * To) 170 * delta_H Ts (0.97 * To) /
            (2 * 1.008 * 3.6)) +
         (interp Ts siTable -
          interp (0.97 * To) siTable / delta_H (0.97 * To) 170 * delta_H Ts (0.97 * To) /
            (2 * 1.008 * 3.6))) := by
  have h := si2_power_req_ok (efficiency To) To Ts hTs
  simp only [si2_prod_rate, h, gammaOf]

/-- Electrical-fraction bounds for the boosted SI pathway under the amended
hypothesis that the reactor steam temperature lies between 750 C and the
process temperature. -/
theorem si2_gamma_in_unit (P To Ts : ℝ) (h1 : 750 ≤ 0.97 * To) (h2 : 0.97 * To ≤ Ts) :
    0 ≤ gammaOf (si2_prod_rate P To Ts) ∧ gammaOf (si2_prod_rate P To Ts) ≤ 1 := by
  have hTs : (750 : ℝ) ≤ Ts := le_trans h1 h2
  have hTo : (100 : ℝ) ≤ To := by linarith
  have heff := eff_pos To hTo
  have hsiTr := si_interp_bounds (K := ℝ) (0.97 * To)
  have hsiTs := si_interp_bounds (K := ℝ) Ts
  have hentTr := ent_ge750 (K := ℝ) (0.97 * To) h1
  have hentTs := ent_ge750 (K := ℝ) Ts hTs
  have hdTr170 : (59 : ℝ) ≤ delta_H (0.97 * To) 170 := by
    rw [delta_H, ent_at_170]
    linarith [hentTr.1]
  have hdTsTr0 : 0 ≤ delta_H Ts (0.97 * To) := by
    rw [delta_H]
    have := interp_mono (0.97 * To) Ts h2 entTable entTable_chainX entTable_chainY
    linarith
  have hdTsTr1 : delta_H Ts (0.97 * To) ≤ 11 := by
    rw [delta_H]
    linarith [hentTs.2, hentTr.1]
  have hmdot0 : 0 ≤ interp (0.97 * To) siTable / delta_H (0.97 * To) 170 :=
    div_nonneg (by linarith [hsiTr.1]) (by linarith)
  have hmdot1 : interp (0.97 * To) siTable / delta_H (0.97 * To) 170 ≤ 500 / 3 / 59 :=
    div_le_div₀ (by norm_num) hsiTr.2 (by norm_num) hdTr170
  have hb0 : 0 ≤ interp (0.97 * To) siTable / delta_H (0.97 * To) 170 *
      delta_H Ts (0.97 * To) / (2 * 1.008 * 3.6) :=
    div_nonneg (mul_nonneg hmdot0 hdTsTr0) (by norm_num)
  have hb1 : interp (0.97 * To) siTable / delta_H (0.97 * To) 170 *
      delta_H Ts (0.97 * To) / (2 * 1.008 * 3.6) ≤ 5 := by
    have hmm : interp (0.97 * To) siTable / delta_H (0.97 * To) 170 *
        delta_H Ts (0.97 * To) ≤ 500 / 3 / 59 * 11 :=
      mul_le_mul hmdot1 hdTsTr1 hdTsTr0 (by norm_num)
    calc interp (0.97 * To) siTable / delta_H (0.97 * To) 170 *
        delta_H Ts (0.97 * To) / (2 * 1.008 * 3.6)
        ≤ 500 / 3 / 59 * 11 / (2 * 1.008 * 3.6) :=
          (div_le_div_iff_of_pos_right (by norm_num)).mpr hmm
      _ ≤ 5 := by norm_num
  have hg0 : 0 ≤ 1 / efficiency To * (1 / 0.95) *
      (interp (0.97 * To) siTable / delta_H (0.97 * To) 170 * delta_H Ts (0.97 * To) /
        (2 * 1.008 * 3.6)) :=
    mul_nonneg (mul_nonneg (one_div_nonneg.mpr heff.le) (by norm_num)) hb0
  have hc0 : 0 < interp Ts siTable -
      interp (0.97 * To) siTable / delta_H (0.97 * To) 170 * delta_H Ts (0.97 * To) /
        (2 * 1.008 * 3.6) := by
    linarith [hsiTs.1]
  rw [si2_prod_rate_gamma P To Ts hTs]
  exact gamma_div_bounds _ _ hg0 hc0.le (add_pos_of_nonneg_of_pos hg0 hc0)

set_option maxHeartbeats 2000000 in
/-- Counterexample for C5: the claim constrains only the temperatures.  With
process temperature Ts = 1000 at least 750 but outlet temperature 100 (so the
steam temperature 97 lies below the SI table and the enthalpy difference to
the 170 C feed point is negative), the boosted SI pathway returns gamma
above 1; and with temperatures inside the tabulated 100 to 1200 range and
positive efficiency but pressure exp 12 atm, the HTE pathway also returns
gamma above 1, since the pressure correction drives its thermal share
negative. -/
theorem gamma_range_counterexample :
    ((750 : ℝ) ≤ 1000 ∧ 1 < gammaOf (si2_prod_rate (1 : ℝ) 100 1000)) ∧
    (100 ≤ 0.97 * ((120000 : ℝ) / 97) ∧ 0.97 * ((120000 : ℝ) / 97) ≤ 1200 ∧
      0 < efficiency (0.97 * ((120000 : ℝ) / 97)) ∧
      1 < (hte_power_req Real.log (Real.exp 12) (120000 / 97)).2) := by
  refine ⟨⟨by norm_num, ?_⟩, by norm_num, by norm_num, by norm_num [efficiency], ?_⟩
  · norm_num [si2_prod_rate, si2_power_req, gammaOf, delta_H, interp, interpGo,
      siTable, entTable, efficiency]
  · norm_num [hte_power_req, hte_req, efficiency, delta_H, interp, interpGo,
      entTable, dgTable, tdsTable, Real.log_exp]

/-- C5 amended: the electrical fraction gamma lies in the unit interval for
the HTE and boosted HTE pathways when the electrolysis temperatures lie in
the tabulated 100 to 1200 C range and additionally the pressure lies between
1 and 20000 atm, and for the boosted SI pathway when additionally the
reactor steam temperature 0.97*Tout lies between 750 C and the process
temperature Ts. -/
theorem gamma_range_amended :
    (∀ p To : ℝ, 1 ≤ p → p ≤ 20000 → 100 ≤ 0.97 * To → 0.97 * To ≤ 1200 →
      0 ≤ (hte_power_req Real.log p To).2 ∧ (hte_power_req Real.log p To).2 ≤ 1) ∧
    (∀ p To Te : ℝ, 1 ≤ p → p ≤ 20000 → 100 ≤ 0.97 * To → 0.97 * To ≤ 1200 →
      100 ≤ Te → Te ≤ 1200 →
      0 ≤ (hte2_power_req Real.log p To Te).2 ∧ (hte2_power_req Real.log p To Te).2 ≤ 1) ∧
    (∀ P To Ts : ℝ, 750 ≤ 0.97 * To → 0.97 * To ≤ Ts →
      0 ≤ gammaOf (si2_prod_rate P To Ts) ∧ gammaOf (si2_prod_rate P To Ts) ≤ 1) :=
  ⟨fun p To hp1 hp2 h1 h2 => hte_gamma_in_unit p To hp1 hp2 h1 h2,
    fun p To Te hp1 hp2 h1 h2 h3 h4 => hte2_gamma_in_unit p To Te hp1 hp2 h1 h2 h3 h4,
    fun P To Ts h1 h2 => si2_gamma_in_unit P To Ts h1 h2⟩

/-- Witness for C5 amended: the three pathways at pressure 1 atm, outlet
temperature 1000 C (boost electrolysis at 900 C), and the boosted SI case at
outlet 800 C with process temperature 800 C. -/
theorem gamma_range_amended_witness :
    ((1 : ℝ) ≤ 1 ∧ (1 : ℝ) ≤ 20000 ∧ 100 ≤ 0.97 * (1000 : ℝ) ∧ 0.97 * (1000 : ℝ) ≤ 1200 ∧
      0 ≤ (hte_power_req Real.log 1 1000).2 ∧ (hte_power_req Real.log 1 1000).2 ≤ 1) ∧
    (100 ≤ (900 : ℝ) ∧ (900 : ℝ) ≤ 1200 ∧
      0 ≤ (hte2_power_req Real.log 1 1000 900).2 ∧ (hte2_power_req Real.log 1 1000 900).2 ≤ 1) ∧
    (750 ≤ 0.97 * (800 : ℝ) ∧ 0.97 * (800 : ℝ) ≤ 800 ∧
      0 ≤ gammaOf (si2_prod_rate (1 : ℝ) 800 800) ∧ gammaOf (si2_prod_rate (1 : ℝ) 800 800) ≤ 1) := by
  have w1 := gamma_range_amended.1 1 1000 (by norm_num) (by norm_num) (by norm_num) (by norm_num)
  have w2 := gamma_range_amended.2.1 1 1000 900 (by norm_num) (by norm_num) (by norm_num)
    (by norm_num) (by norm_num) (by norm_num)
  have w3 := gamma_range_amended.2.2 1 800 800 (by norm_num) (by norm_num)
  exact ⟨⟨by norm_num, by norm_num, by norm_num, by norm_num, w1.1, w1.2⟩,
    ⟨by norm_num, by norm_num, w2.1, w2.2⟩,
    by norm_num, by norm_num, w3.1, w3.2⟩
